import Mathlib

/-!
Verification of `rpm/vendor-theia-ide-deps.py`, the source-tarball generator
for Theia IDE RPM builds.  The script's operations are shallowly embedded:
file-system and network effects are passed in explicitly (the content of a
pre-existing destination file, the outcome of a fetch, the outcome of a git
subprocess), and each Python function becomes a pure Lean function over those
inputs.  Python regular expressions used by the script
(`^Version:\s+(\S+)`, `^Release:\s+(\d+)`, and the `re.sub` patterns
`^Key:\s+.*$` with `re.MULTILINE`) are modelled character-exactly over
`List Char`, with `\s` taken as the ASCII whitespace class.
-/

namespace VendorDeps

/-- ASCII whitespace, the characters matched by Python's `\s` on ASCII text. -/
def isWS (c : Char) : Bool :=
  c = ' ' || c = '\t' || c = '\n' || c = '\r' || c = '\x0b' || c = '\x0c'

/-- Python truthiness of an optional string: `None` and `""` are falsy. -/
def truthy : Option String → Bool
  | none => false
  | some s => !(s == "")

/-! ## `download_file` (source lines 93-132)

The download of one file, with optional SHA256 verification.  Effects are
explicit inputs: `existing` is the content of the destination file before the
call (`none` when the file does not exist), `fetch` is what one network
download would deliver (`none` for a transport error / exception), and `sha`
stands for the SHA256 hex-digest function, kept abstract since only digest
comparisons matter to the control flow. -/

/-- Result of one `download_file` call: the boolean return value, the content
of the destination file after the call (`none` = file absent), and the number
of network download requests that were performed. -/
structure DlResult where
  success : Bool
  file : Option String
  downloads : Nat
deriving DecidableEq, Repr

/-- `verify_sha256` (source lines 84-90): hex digest of the file content
compared with the expected digest. -/
def verify_sha256 (sha : String → String) (content expected : String) : Bool :=
  sha content == expected

/-- The unconditional download part of `download_file` (source lines 110-132):
one `urllib` request, write to the destination, verify when a checksum was
declared, unlink on mismatch or on an exception. -/
def doDownload (sha : String → String) (fetch : Option String)
    (expected_sha256 : Option String) : DlResult :=
  match fetch with
  | none => ⟨false, none, 1⟩
  | some c =>
    match expected_sha256 with
    | some e => if verify_sha256 sha c e then ⟨true, some c, 1⟩ else ⟨false, none, 1⟩
    | none => ⟨true, some c, 1⟩

/-- `download_file` (source lines 93-132).  If the destination already exists:
return success when the declared checksum matches (or when no checksum was
declared); on a mismatch unlink the stale file and fall through to one fresh
download. -/
def download_file (sha : String → String) (existing : Option String)
    (fetch : Option String) (expected_sha256 : Option String) : DlResult :=
  match existing with
  | some c =>
    match expected_sha256 with
    | some e =>
      if verify_sha256 sha c e then ⟨true, some c, 0⟩
      else doDownload sha fetch expected_sha256
    | none => ⟨true, some c, 0⟩
  | none => doDownload sha fetch expected_sha256

/-! ## `clone_git_repo` (source lines 135-182)

Effects as explicit inputs: whether the destination directory exists, whether
it contains a `.git` subdirectory, and the outcomes of the three git
subprocess invocations (`clone`, `fetch`, `checkout`).  The result records
the boolean return value and how many git subprocess invocations ran. -/

/-- `clone_git_repo` modelled on its effect inputs; returns
(success, number of git subprocess invocations performed). -/
def clone_git_repo (present hasGit : Bool)
    (cloneOk fetchOk checkoutOk : Bool) : Bool × Nat :=
  if present && hasGit then (true, 0)
  else if cloneOk then
    if fetchOk then
      if checkoutOk then (true, 3) else (false, 3)
    else (false, 2)
  else (false, 1)

/-! ## `download_dependencies` (source lines 185-277)

One dependency-source descriptor of the flatpak-node-generator JSON, and the
single pass that walks the descriptor list.  The outcome of each potential
download/clone is supplied alongside its descriptor (`Bool`: would the
`download_file` / `clone_git_repo` call succeed), embedding the network
nondeterminism.  The pass returns the four counters, the list of operations
actually attempted (in order), and the boolean return value. -/

/-- One entry of the sources JSON (spec §3): a `file` or `git` descriptor.
Absent JSON fields are `none`; `only-arches` defaults to `[]`. -/
structure Source where
  type : Option String
  url : Option String
  commit : Option String
  dest : Option String
  destFilename : Option String
  sha256 : Option String
  onlyArches : List String
deriving DecidableEq, Repr

/-- The four counters of `download_dependencies`. -/
structure Counts where
  success : Nat
  skip : Nat
  fail : Nat
  git : Nat
deriving DecidableEq, Repr

/-- An operation the pass actually performed: one `clone_git_repo` or one
`download_file` call, with its outcome. -/
inductive DepStep
  | cloneAttempt (s : Source) (res : Bool)
  | downloadAttempt (s : Source) (res : Bool)
deriving DecidableEq, Repr

/-- The two target architectures (source line 196). -/
def arches : List String := ["x86_64", "aarch64"]

/-- Architecture filter of a `file` descriptor (source lines 237-244):
skipped when `only-arches` is non-empty and no target architecture occurs
in it. -/
def archSkipped (s : Source) : Bool :=
  !s.onlyArches.isEmpty && (arches.filter (fun a => s.onlyArches.contains a)).isEmpty

/-- Processing of one descriptor in the loop body (source lines 213-262):
updated counters plus the download/clone operation attempted for it, if any. -/
def processSource (acc : Counts) (s : Source) (res : Bool) : Counts × List DepStep :=
  if s.type == some "git" then
    if truthy s.url && truthy s.commit && truthy s.dest then
      if res then
        ({ acc with git := acc.git + 1, success := acc.success + 1 }, [.cloneAttempt s res])
      else ({ acc with fail := acc.fail + 1 }, [.cloneAttempt s res])
    else (acc, [])
  else if s.type == some "file" then
    if archSkipped s then ({ acc with skip := acc.skip + 1 }, [])
    else if truthy s.url && truthy s.destFilename then
      if res then ({ acc with success := acc.success + 1 }, [.downloadAttempt s res])
      else ({ acc with fail := acc.fail + 1 }, [.downloadAttempt s res])
    else (acc, [])
  else (acc, [])

/-- The descriptor loop of `download_dependencies`. -/
def runSources (acc : Counts) : List (Source × Bool) → Counts × List DepStep
  | [] => (acc, [])
  | (s, r) :: rest =>
    let p := processSource acc s r
    let q := runSources p.1 rest
    (q.1, p.2 ++ q.2)

/-- `download_dependencies` (source lines 185-277): walk all descriptors,
then return `False` iff `fail_count > 0` (source lines 271-277).  Result:
(counters, attempted operations, boolean return value). -/
def download_dependencies (l : List (Source × Bool)) : Counts × List DepStep × Bool :=
  let r := runSources ⟨0, 0, 0, 0⟩ l
  (r.1, r.2, r.1.fail == 0)

/-- A descriptor on which the pass performs a download/clone attempt
(determined by the descriptor alone, source lines 213-262): a `git` entry
with truthy `url`/`commit`/`dest`, or a `file` entry that is not skipped
for architecture and has truthy `url`/`dest-filename`. -/
def eligible (s : Source) : Bool :=
  if s.type == some "git" then
    truthy s.url && truthy s.commit && truthy s.dest
  else if s.type == some "file" then
    !archSkipped s && (truthy s.url && truthy s.destFilename)
  else false

/-- The operation the pass runs for an eligible descriptor. -/
def mkStep (s : Source) (res : Bool) : DepStep :=
  if s.type == some "git" then .cloneAttempt s res else .downloadAttempt s res

/-! ## Regex machinery shared by `get_copr_release_number` and
`update_spec_file`

The script uses `re.MULTILINE` patterns anchored with `^`.  Matching is
modelled over `List Char`.  `stripPfx k cs` strips the literal prefix `k`,
`tryField` attempts `^Key:\s+(CLASS+)` at one line start, and `searchField`
scans line starts left to right, which is exactly where `^`-anchored matches
can begin.  Note that Python's `\s` also matches `'\n'`, so a match may span
lines; the scan-by-line-start model accounts for this (see the lemmas). -/

/-- Strip a literal prefix, or fail. -/
def stripPfx : List Char → List Char → Option (List Char)
  | [], cs => some cs
  | _ :: _, [] => none
  | k :: ks, c :: cs => if c = k then stripPfx ks cs else none

/-- Attempt `key ++ \s+ (good+)` at the current position (greedy `\s+`, then
one-or-more `good` characters, captured greedily).  Returns the captured
group.  Used for `(\S+)` (`good` = non-whitespace) and `(\d+)`. -/
def tryField (key : List Char) (good : Char → Bool) (cs : List Char) :
    Option (List Char) :=
  match stripPfx key cs with
  | none => none
  | some rest =>
    match rest with
    | [] => none
    | c :: _ =>
      if isWS c then
        match rest.dropWhile isWS with
        | [] => none
        | d :: ds => if good d then some ((d :: ds).takeWhile good) else none
      else none

/-- `re.search` of a `^`-anchored field pattern: try each line start in
order. -/
def searchFieldF (key : List Char) (good : Char → Bool) :
    Nat → List Char → Option (List Char)
  | 0, _ => none
  | fuel + 1, cs =>
    match tryField key good cs with
    | some tok => some tok
    | none =>
      match cs.dropWhile (fun c => !(c == '\n')) with
      | [] => none
      | _ :: rest => searchFieldF key good fuel rest

/-- `re.search(r'^Key\s+(CLASS+)', content, re.MULTILINE)`, with enough fuel
for the whole input. -/
def searchField (key : List Char) (good : Char → Bool) (cs : List Char) :
    Option (List Char) :=
  searchFieldF key good (cs.length + 1) cs

/-- Decimal digit test (`\d` on ASCII). -/
def isDigitCh (c : Char) : Bool := '0' ≤ c && c ≤ '9'

/-- `int()` on a captured digit string. -/
def digitsToNat (l : List Char) : Nat :=
  l.foldl (fun n c => n * 10 + (c.toNat - '0'.toNat)) 0

/-! ## `get_copr_release_number` (source lines 380-454) -/

/-- The `re.search(r'^Version:\s+(\S+)', content, re.MULTILINE)` capture
(source line 428); `.strip()` on a `\S+` capture is the identity. -/
def parseVersionField (content : List Char) : Option (List Char) :=
  searchField "Version:".toList (fun c => !isWS c) content

/-- The `re.search(r'^Release:\s+(\d+)', content, re.MULTILINE)` capture,
converted by `int` (source lines 429, 437). -/
def parseReleaseField (content : List Char) : Option Nat :=
  (searchField "Release:".toList isDigitCh content).map digitsToNat

/-- `get_copr_release_number` (source lines 380-454).  `fetched` is the
outcome of the HTTP fetch of the dist-git spec file: `none` when the fetch
raises, times out (10-second bound) or is rejected; `some content`
otherwise.  The function is total — the Python `try`/`except` around the
whole body guarantees every failure path returns the default `1`. -/
def get_copr_release_number (version : List Char) (fetched : Option (List Char)) :
    Nat :=
  match fetched with
  | none => 1
  | some content =>
    match parseVersionField content, parseReleaseField content with
    | some prev_version, some prev_release =>
      if prev_version = version then prev_release + 1 else 1
    | _, _ => 1

/-! ## `re.sub(r'^Key\s+.*$', repl, content, flags=re.MULTILINE)`
(used by `update_spec_file`, source lines 479-511)

A match at a line start consists of the literal `key`, a greedy `\s+` run
(which may cross newlines), then `.*` up to the next `'\n'` (or the end),
where `$` always holds.  `matchKey` returns the remainder of the input after
the matched region.  `substF` replaces every match, scanning line starts left
to right as `re.sub` does, resuming right after each replaced region. -/

/-- Try the pattern `key\s+.*$` at the current position; on success return
what follows the matched region (either `[]` or a list starting with
`'\n'`). -/
def matchKey (key : List Char) (cs : List Char) : Option (List Char) :=
  match stripPfx key cs with
  | none => none
  | some rest =>
    match rest with
    | [] => none
    | c :: _ =>
      if isWS c then
        some ((rest.dropWhile isWS).dropWhile (fun x => !(x == '\n')))
      else none

/-- One full `re.sub` pass with fuel (the fuel is irrelevant once it exceeds
the input length; see `substF_irrel`). -/
def substF (key repl : List Char) : Nat → List Char → List Char
  | 0, cs => cs
  | fuel + 1, cs =>
    match matchKey key cs with
    | some [] => repl
    | some (c :: rest) => repl ++ c :: substF key repl fuel rest
    | none =>
      match cs.dropWhile (fun c => !(c == '\n')) with
      | [] => cs
      | c :: rest =>
        cs.takeWhile (fun x => !(x == '\n')) ++ c :: substF key repl fuel rest

/-- `re.sub(r'^key\s+.*$', repl, cs, flags=re.MULTILINE)`. -/
def subst (key repl : List Char) (cs : List Char) : List Char :=
  substF key repl (cs.length + 1) cs

/-! ## `update_spec_file` (source lines 457-529) -/

/-- Replacement text for the `Version:` field (source line 481). -/
def replVersion (version : List Char) : List Char :=
  "Version:        ".toList ++ version

/-- Replacement text for the `Release:` field (source line 490):
`Release:        {release}%{?dist}`. -/
def replRelease (release : Nat) : List Char :=
  "Release:        ".toList ++ Nat.toDigits 10 release ++ "%\x7b?dist\x7d".toList

/-- Replacement text for `%global theia_version` (source line 499). -/
def replTheia (theia_version : List Char) : List Char :=
  "%global theia_version ".toList ++ theia_version

/-- Replacement text for `%global electron_version` (source line 507). -/
def replElectron (electron_version : List Char) : List Char :=
  "%global electron_version ".toList ++ electron_version

/-- The conditional `Release:` substitution (source lines 487-493), applied
only when `release is not None`. -/
def appRelease (release : Option Nat) (c : List Char) : List Char :=
  match release with
  | some r => subst "Release:".toList (replRelease r) c
  | none => c

/-- The conditional `%global theia_version` substitution (source lines
496-502), applied only when `theia_version` is truthy. -/
def appTheia (theia_version : Option (List Char)) (c : List Char) : List Char :=
  match theia_version with
  | some t =>
    if t.isEmpty then c else subst "%global theia_version".toList (replTheia t) c
  | none => c

/-- The conditional `%global electron_version` substitution (source lines
504-511), applied only when `electron_version` is truthy. -/
def appElectron (electron_version : Option (List Char)) (c : List Char) : List Char :=
  match electron_version with
  | some t =>
    if t.isEmpty then c else subst "%global electron_version".toList (replElectron t) c
  | none => c

/-- The content computation of `update_spec_file` (source lines 473-511):
the four conditional `re.sub` passes in order.  The `Version:` substitution
is unconditional. -/
def update_spec_content (content : List Char) (version : List Char)
    (theia_version electron_version : Option (List Char)) (release : Option Nat) :
    List Char :=
  appElectron electron_version
    (appTheia theia_version
      (appRelease release
        (subst "Version:".toList (replVersion version) content)))

/-- `update_spec_file` (source lines 457-529): the new file content together
with the boolean return value — `true` when the content changed and the file
was rewritten, `false` when it reports "No changes needed". -/
def update_spec_file (content : List Char) (version : List Char)
    (theia_version electron_version : Option (List Char)) (release : Option Nat) :
    List Char × Bool :=
  let c := update_spec_content content version theia_version electron_version release
  (c, !(c == content))

/-- Two character lists that provably differ at some position common to
both — used to show that a replacement line inserted for one key can never
begin a match of another key. -/
def diffAt : List Char → List Char → Bool
  | a :: as, b :: bs => a != b || diffAt as bs
  | _, _ => false

/-- Shape of every replacement string the spec updater inserts:
the key itself, then a whitespace character, then newline-free text
containing at least one non-whitespace character.  Such a replacement line
is itself a full-line match of its own pattern, which drives the
idempotence argument. -/
def GoodRepl (key repl : List Char) : Prop :=
  ∃ m mid, repl = key ++ m :: mid ∧ isWS m = true
    ∧ '\n' ∉ m :: mid ∧ ∃ c ∈ m :: mid, isWS c = false

/-- A benign substituted value: newline-free with at least one
non-whitespace character. -/
def goodVal (v : List Char) : Prop :=
  '\n' ∉ v ∧ ∃ c ∈ v, isWS c = false

/-! ## Driver resolution logic (`main`, source lines 532-611) -/

/-- Python `a or b` on optional strings (`None` and `""` are falsy). -/
def pyOr (a b : Option String) : Option String :=
  if truthy a then a else b

/-- The version resolution of `main` (source lines 556-577).  Inputs:
the `--version-arg` flag, the positional argument, `--github-latest`,
and the two effectful lookups — `get_latest_github_version()` and
`get_version_from_local()` (each `none` on failure).  `Except.error ()`
models `sys.exit(1)`. -/
def resolveVersion (version_opt version_pos : Option String) (github_latest : Bool)
    (githubVer localVer : Option String) : Except Unit String :=
  let v := pyOr version_opt version_pos
  if truthy v then .ok (v.getD "")
  else if github_latest then
    if truthy githubVer then .ok (githubVer.getD "") else .error ()
  else
    if truthy localVer then .ok (localVer.getD "") else .error ()

/-- The generation-flag resolution of `main` (source lines 580-597):
what to generate as (main, plugins, deps). -/
def resolveGen (onlyMain onlyPlugins onlyDeps skipMain skipPlugins skipDeps : Bool) :
    Bool × Bool × Bool :=
  if onlyMain then (true, false, false)
  else if onlyPlugins then (false, true, false)
  else if onlyDeps then (false, false, true)
  else (!skipMain, !skipPlugins, !skipDeps)

/-- The output-directory resolution of `main` (source lines 601-608).
`envCopr` and `envResultdir` are `os.environ.get('COPR_RESULTDIR')` and
`os.environ.get('resultdir')` (`none` when the variable is unset). -/
def resolveOutputDir (output : Option String) (copr : Bool)
    (envCopr envResultdir : Option String) : String :=
  if truthy output then output.getD ""
  else if copr then envCopr.getD (envResultdir.getD "/workdir/rpm")
  else "."

/-! ## Theorems for the claims -/

/-- C4: a `download_file` call whose declared checksum already matches the
existing destination file returns success with zero network requests, and a
`clone_git_repo` call whose destination exists and contains a `.git`
directory returns success with zero git subprocess invocations — re-running
is a no-op whatever the network would have delivered. -/
theorem c4_idempotent_success (sha : String → String) (c e : String)
    (fetch : Option String) (h : sha c = e) (ga gb gc : Bool) :
    download_file sha (some c) fetch (some e) = ⟨true, some c, 0⟩
    ∧ clone_git_repo true true ga gb gc = (true, 0) := by
  constructor
  · simp [download_file, verify_sha256, h]
  · simp [clone_git_repo]

theorem c4_idempotent_success_witness :
    download_file id (some "a") none (some "a") = ⟨true, some "a", 0⟩
    ∧ clone_git_repo true true false false false = (true, 0) :=
  c4_idempotent_success id "a" "a" none rfl false false false

/-- C5: when a declared sha256 is present and neither the pre-existing
destination file (if any) nor the single fresh download (if it succeeds at
the transport level) verifies, `download_file` returns failure and the
destination file does not exist after the call. -/
theorem c5_failed_checksum_removes_file (sha : String → String)
    (existing fetch : Option String) (e : String)
    (hex : ∀ c, existing = some c → sha c ≠ e)
    (hfe : ∀ c, fetch = some c → sha c ≠ e) :
    download_file sha existing fetch (some e) = ⟨false, none, 1⟩ := by
  have hdo : doDownload sha fetch (some e) = ⟨false, none, 1⟩ := by
    cases fetch with
    | none => rfl
    | some c => simp [doDownload, verify_sha256, hfe c rfl]
  cases existing with
  | none => simpa [download_file] using hdo
  | some c => simp [download_file, verify_sha256, hex c rfl, hdo]

theorem c5_failed_checksum_removes_file_witness :
    download_file id (some "x") (some "y") (some "z") = ⟨false, none, 1⟩ :=
  c5_failed_checksum_removes_file id (some "x") (some "y") "z"
    (fun c hc => by cases hc; decide) (fun c hc => by cases hc; decide)

/-- C3 counterexample: a file descriptor with a declared sha256, no
pre-existing destination file, and a fresh download whose content fails
verification.  The claim asserts the download is retried once more before
the descriptor is counted as failed; the code instead unlinks the file and
returns failure after the single download (`downloads = 1`, not `≥ 2`). -/
theorem c3_counterexample :
    download_file id none (some "aa") (some "bb") = ⟨false, none, 1⟩
    ∧ ¬ 2 ≤ (download_file id none (some "aa") (some "bb")).downloads := by
  exact ⟨by decide, by decide⟩

/-- C3 amended: the only retry in `download_file` is for a pre-existing
destination file that fails verification — it is unlinked and exactly one
fresh download is attempted; if that fresh download also fails verification
(or errors), the call fails immediately, with no further retry. -/
theorem c3_amended_single_fresh_attempt (sha : String → String) (c e : String)
    (fetch : Option String) (hmis : sha c ≠ e) :
    download_file sha (some c) fetch (some e) = doDownload sha fetch (some e)
    ∧ (download_file sha (some c) fetch (some e)).downloads = 1
    ∧ (∀ d, fetch = some d → sha d ≠ e →
        download_file sha (some c) fetch (some e) = ⟨false, none, 1⟩) := by
  have h1 : download_file sha (some c) fetch (some e) = doDownload sha fetch (some e) := by
    simp [download_file, verify_sha256, hmis]
  refine ⟨h1, ?_, ?_⟩
  · rw [h1]
    cases fetch with
    | none => rfl
    | some d => simp [doDownload]; split <;> rfl
  · intro d hd hdm
    rw [h1]
    cases hd
    simp [doDownload, verify_sha256, hdm]

theorem c3_amended_single_fresh_attempt_witness :
    download_file id (some "old") (some "new") (some "sha") = ⟨false, none, 1⟩ :=
  (c3_amended_single_fresh_attempt id "old" "sha" (some "new") (by decide)).2.2
    "new" rfl (by decide)

/-- C8: version resolution in `main` follows the strict priority
explicit version (flag or positional) → `--github-latest` remote tag →
local `package.json`, with a fatal error (`sys.exit(1)`) when the selected
source yields no version.  An explicitly supplied version makes the result
independent of both lookups. -/
theorem c8_version_priority (vopt vpos : Option String) (gh : Bool)
    (ghVer localVer ghVer2 localVer2 : Option String) :
    (truthy (pyOr vopt vpos) = true →
      resolveVersion vopt vpos gh ghVer localVer = .ok ((pyOr vopt vpos).getD "")
      ∧ resolveVersion vopt vpos gh ghVer localVer
        = resolveVersion vopt vpos gh ghVer2 localVer2)
  ∧ (truthy (pyOr vopt vpos) = false → gh = true →
      (truthy ghVer = true →
        resolveVersion vopt vpos gh ghVer localVer = .ok (ghVer.getD ""))
      ∧ (truthy ghVer = false →
        resolveVersion vopt vpos gh ghVer localVer = .error ()))
  ∧ (truthy (pyOr vopt vpos) = false → gh = false →
      (truthy localVer = true →
        resolveVersion vopt vpos gh ghVer localVer = .ok (localVer.getD ""))
      ∧ (truthy localVer = false →
        resolveVersion vopt vpos gh ghVer localVer = .error ())) := by
  refine ⟨fun h => ⟨?_, ?_⟩, fun h hg => ⟨fun h2 => ?_, fun h2 => ?_⟩,
    fun h hg => ⟨fun h2 => ?_, fun h2 => ?_⟩⟩ <;>
    simp [resolveVersion, h, *]

theorem c8_version_priority_witness :
    resolveVersion (some "1.2") none true (some "9.9") none = .ok "1.2" := by
  have h := (c8_version_priority (some "1.2") none true (some "9.9") none none none).1 rfl
  simpa using h.1

/-- C9: the mutually-exclusive generation flags are resolved first-match:
`--only-main-source` wins over `--only-plugins`, which wins over
`--only-deps`; any `--only` flag makes all `--skip-*` flags irrelevant, and
the skip flags are consulted only when no `--only` flag is set. -/
theorem c9_flag_precedence (om op od sm sp sd : Bool) :
    (om = true → resolveGen om op od sm sp sd = (true, false, false))
  ∧ (om = false → op = true → resolveGen om op od sm sp sd = (false, true, false))
  ∧ (om = false → op = false → od = true →
      resolveGen om op od sm sp sd = (false, false, true))
  ∧ (om = false → op = false → od = false →
      resolveGen om op od sm sp sd = (!sm, !sp, !sd)) := by
  refine ⟨?_, ?_, ?_, ?_⟩ <;> intros <;> simp_all [resolveGen]

theorem c9_flag_precedence_witness :
    resolveGen true true true true true true = (true, false, false) :=
  (c9_flag_precedence true true true true true true).1 rfl

/-- C10: in COPR mode with no explicit output option the output directory is
`COPR_RESULTDIR` if that variable is set, else `resultdir` if set, else the
hardcoded fallback `/workdir/rpm`. -/
theorem c10_copr_output_dir (output envCopr envResultdir : Option String)
    (hout : truthy output = false) :
    (∀ s, envCopr = some s → resolveOutputDir output true envCopr envResultdir = s)
  ∧ (envCopr = none → ∀ s, envResultdir = some s →
      resolveOutputDir output true envCopr envResultdir = s)
  ∧ (envCopr = none → envResultdir = none →
      resolveOutputDir output true envCopr envResultdir = "/workdir/rpm") := by
  refine ⟨?_, ?_, ?_⟩ <;> intros <;> simp_all [resolveOutputDir]

theorem c10_copr_output_dir_witness :
    resolveOutputDir none true none none = "/workdir/rpm" :=
  (c10_copr_output_dir none none none rfl).2.2 rfl rfl

/-- `archSkipped` unfolded over the concrete two-element architecture
list. -/
theorem archSkipped_eq (s : Source) :
    archSkipped s = (!s.onlyArches.isEmpty
      && (!s.onlyArches.contains "x86_64" && !s.onlyArches.contains "aarch64")) := by
  by_cases h1 : "x86_64" ∈ s.onlyArches <;> by_cases h2 : "aarch64" ∈ s.onlyArches <;>
    simp [archSkipped, arches, List.filter_cons, h1, h2]

/-- The `fail` counter after one descriptor: bumped exactly when the
descriptor is eligible and its download/clone fails. -/
theorem processSource_fail (acc : Counts) (s : Source) (r : Bool) :
    (processSource acc s r).1.fail
      = acc.fail + (if eligible s && !r then 1 else 0) := by
  simp only [processSource, eligible]
  split
  · split
    · cases r <;> simp_all
    · simp_all
  · split
    · split
      · simp_all
      · split
        · cases r <;> simp_all
        · simp_all
    · simp_all

/-- The operations attempted for one descriptor: exactly one when it is
eligible, none otherwise. -/
theorem processSource_steps (acc : Counts) (s : Source) (r : Bool) :
    (processSource acc s r).2 = if eligible s then [mkStep s r] else [] := by
  simp only [processSource, eligible, mkStep]
  split
  · split
    · cases r <;> simp_all
    · simp_all
  · split
    · split
      · simp_all
      · split
        · cases r <;> simp_all
        · simp_all
    · simp_all

/-- The loop accumulates the failure count over the whole list. -/
theorem runSources_fail (l : List (Source × Bool)) (acc : Counts) :
    (runSources acc l).1.fail
      = acc.fail + l.countP (fun p => eligible p.1 && !p.2) := by
  induction l generalizing acc with
  | nil => simp [runSources]
  | cons p rest ih =>
    obtain ⟨s, r⟩ := p
    simp only [runSources, ih, processSource_fail, List.countP_cons]
    by_cases h : eligible s && !r = true <;> simp [h] <;> omega

/-- The loop attempts an operation for every eligible descriptor of the
list, in order, whatever the outcomes are — in particular an individual
failure never stops the iteration. -/
theorem runSources_steps (l : List (Source × Bool)) (acc : Counts) :
    (runSources acc l).2
      = (l.filter (fun p => eligible p.1)).map (fun p => mkStep p.1 p.2) := by
  induction l generalizing acc with
  | nil => simp [runSources]
  | cons p rest ih =>
    obtain ⟨s, r⟩ := p
    simp only [runSources, ih, processSource_steps, List.filter_cons]
    by_cases h : eligible s = true <;> simp [h]

/-- C2: the dependency download pass attempts every eligible descriptor of
the list regardless of individual failures, and the boolean result of the
pass is success exactly when no attempted descriptor failed
(`fail_count == 0`).  The closing conjunct is the spec's end-to-end
scenario: one wrong-sha256 `file` entry among two valid ones yields a
failing pass in which both valid entries were still attempted (the bad
entry too). -/
theorem c2_pass_attempts_all_and_fails_iff (l : List (Source × Bool)) :
    (download_dependencies l).2.2
      = (l.countP (fun p => eligible p.1 && !p.2) == 0)
    ∧ (download_dependencies l).2.1
      = (l.filter (fun p => eligible p.1)).map (fun p => mkStep p.1 p.2)
    ∧ (let good1 : Source := ⟨some "file", some "u1", none, some "", some "f1", some "s1", []⟩
       let bad : Source := ⟨some "file", some "u2", none, some "", some "f2", some "wrong", []⟩
       let good2 : Source := ⟨some "file", some "u3", none, some "", some "f3", some "s3", []⟩
       (download_dependencies [(good1, true), (bad, false), (good2, true)]).2.2 = false
       ∧ (download_dependencies [(good1, true), (bad, false), (good2, true)]).2.1
         = [.downloadAttempt good1 true, .downloadAttempt bad false,
            .downloadAttempt good2 true]
       ∧ (download_dependencies [(good1, true), (bad, false), (good2, true)]).1.fail = 1) := by
  refine ⟨?_, ?_, by decide, by decide, by decide⟩
  · simp only [download_dependencies, runSources_fail, Nat.zero_add]
  · simp only [download_dependencies, runSources_steps]

/-- C6: a `file` descriptor whose `only-arches` is non-empty and disjoint
from `{x86_64, aarch64}` is counted as skipped-for-architecture, with no
download attempted and no destination file created; a `file` descriptor
whose `only-arches` is empty or intersects the target set is not skipped
for architecture. -/
theorem c6_arch_filter (acc : Counts) (s : Source) (res : Bool)
    (hf : s.type = some "file") :
    (s.onlyArches ≠ [] → (∀ a ∈ s.onlyArches, a ≠ "x86_64" ∧ a ≠ "aarch64") →
      processSource acc s res = ({ acc with skip := acc.skip + 1 }, []))
  ∧ ((s.onlyArches = [] ∨ "x86_64" ∈ s.onlyArches ∨ "aarch64" ∈ s.onlyArches) →
      archSkipped s = false ∧ (processSource acc s res).1.skip = acc.skip) := by
  constructor
  · intro hne hdisj
    have h1 : ¬ "x86_64" ∈ s.onlyArches := fun h => (hdisj _ h).1 rfl
    have h2 : ¬ "aarch64" ∈ s.onlyArches := fun h => (hdisj _ h).2 rfl
    have harch : archSkipped s = true := by
      rw [archSkipped_eq]
      simp [List.isEmpty_iff, hne, h1, h2]
    simp [processSource, hf, harch]
  · intro hmem
    have harch : archSkipped s = false := by
      rw [archSkipped_eq]
      rcases hmem with h | h | h <;> simp [h, List.isEmpty_iff]
    refine ⟨harch, ?_⟩
    simp only [processSource, hf]
    have hgit : ((some "file" : Option String) == some "git") = false := by decide
    have hfile : ((some "file" : Option String) == some "file") = true := by decide
    simp only [hgit, hfile, if_false, if_true, Bool.false_eq_true, harch]
    split
    · split <;> simp
    · simp

theorem c6_arch_filter_witness :
    processSource ⟨5, 5, 5, 5⟩
      ⟨some "file", some "u", none, some "", some "f", none, ["i386"]⟩ true
      = (⟨5, 6, 5, 5⟩, [])
    ∧ archSkipped ⟨some "file", some "u", none, some "", some "f", none, ["x86_64"]⟩
      = false := by
  constructor
  · exact (c6_arch_filter ⟨5, 5, 5, 5⟩
      ⟨some "file", some "u", none, some "", some "f", none, ["i386"]⟩ true rfl).1
      (by decide) (by decide)
  · exact ((c6_arch_filter ⟨5, 5, 5, 5⟩
      ⟨some "file", some "u", none, some "", some "f", none, ["x86_64"]⟩ true rfl).2
      (Or.inr (Or.inl (by decide)))).1

/-- C1: `get_copr_release_number` is a total function of the requested
version and the fetch outcome — the embedding itself witnesses that no
exception reaches the caller.  Its value: `1` when the fetch fails (error,
bot rejection, or the 10-second timeout), `1` when either the
`^Version:\s+(\S+)` or the `^Release:\s+(\d+)` search fails on the fetched
content, `parsedRelease + 1` when both parse and the parsed version equals
the requested one, and `1` when the parsed version differs. -/
theorem c1_release_number (version : List Char) :
    get_copr_release_number version none = 1
  ∧ (∀ content, parseVersionField content = none →
      get_copr_release_number version (some content) = 1)
  ∧ (∀ content, parseReleaseField content = none →
      get_copr_release_number version (some content) = 1)
  ∧ (∀ content pv pr, parseVersionField content = some pv →
      parseReleaseField content = some pr →
      get_copr_release_number version (some content)
        = if pv = version then pr + 1 else 1) := by
  refine ⟨rfl, ?_, ?_, ?_⟩
  · intro content h
    simp [get_copr_release_number, h]
  · intro content h
    cases hv : parseVersionField content <;>
      simp [get_copr_release_number, h, hv]
  · intro content pv pr hv hr
    simp [get_copr_release_number, hv, hr]

theorem c1_release_number_witness :
    get_copr_release_number "1.67.100".toList
      (some "Version:        1.67.100\nRelease:        3%dist\n".toList) = 4
  ∧ get_copr_release_number "1.68.0".toList
      (some "Version:        1.67.100\nRelease:        3%dist\n".toList) = 1
  ∧ get_copr_release_number "1.68.0".toList none = 1 := by
  refine ⟨?_, ?_, (c1_release_number "1.68.0".toList).1⟩
  · have h := (c1_release_number "1.67.100".toList).2.2.2
      "Version:        1.67.100\nRelease:        3%dist\n".toList
      "1.67.100".toList 3 (by decide) (by decide)
    simpa using h
  · have h := (c1_release_number "1.68.0".toList).2.2.2
      "Version:        1.67.100\nRelease:        3%dist\n".toList
      "1.67.100".toList 3 (by decide) (by decide)
    rw [h]
    decide

/-! ### Support lemmas for the `re.sub` model -/

theorem stripPfx_self_append (k t : List Char) : stripPfx k (k ++ t) = some t := by
  induction k with
  | nil => rfl
  | cons a as ih => simp [stripPfx, ih]

theorem stripPfx_eq_some {k v r : List Char} (h : stripPfx k v = some r) :
    v = k ++ r := by
  induction k generalizing v with
  | nil => simpa [stripPfx] using h
  | cons a as ih =>
    cases v with
    | nil => simp [stripPfx] at h
    | cons c cs =>
      simp only [stripPfx] at h
      split at h
      · rename_i hc
        subst hc
        simpa using ih h
      · exact absurd h (by simp)

theorem diffAt_append {k p : List Char} (h : diffAt k p = true) (w : List Char) :
    diffAt k (p ++ w) = true := by
  induction k generalizing p with
  | nil => simp [diffAt] at h
  | cons a as ih =>
    cases p with
    | nil => simp [diffAt] at h
    | cons b bs =>
      simp only [diffAt, Bool.or_eq_true] at h ⊢
      rcases h with h | h
      · exact Or.inl h
      · exact Or.inr (ih h)

theorem diffAt_strip {k p : List Char} (h : diffAt k p = true) (w : List Char) :
    stripPfx k (p ++ w) = none := by
  induction k generalizing p with
  | nil => simp [diffAt] at h
  | cons a as ih =>
    cases p with
    | nil => simp [diffAt] at h
    | cons b bs =>
      simp only [diffAt, Bool.or_eq_true, bne_iff_ne, ne_eq] at h
      simp only [List.cons_append, stripPfx]
      split
      · rename_i hb
        subst hb
        rcases h with h | h
        · exact absurd rfl h
        · exact ih h
      · rfl

theorem matchKey_length {key cs r : List Char} (h : matchKey key cs = some r) :
    r.length < cs.length := by
  simp only [matchKey] at h
  cases hs : stripPfx key cs with
  | none => simp [hs] at h
  | some rest =>
    rw [hs] at h
    cases rest with
    | nil => simp at h
    | cons c cs2 =>
      by_cases hws : isWS c = true
      · simp only [hws, if_true, Option.some.injEq] at h
        have hdec : cs = key ++ c :: cs2 := stripPfx_eq_some hs
        have h1 : ((c :: cs2).dropWhile isWS).length ≤ cs2.length := by
          rw [List.dropWhile_cons_of_pos hws]
          exact (cs2.dropWhile_sublist isWS).length_le
        have h2 : r.length ≤ ((c :: cs2).dropWhile isWS).length := by
          rw [← h]
          exact (List.dropWhile_sublist _).length_le
        have h3 : cs.length = key.length + (cs2.length + 1) := by simp [hdec]
        omega
      · simp [hws] at h

/-- The head of a non-empty `dropWhile` result falsifies the predicate. -/
theorem dropWhile_cons_head {p : Char → Bool} {l : List Char} {c : Char}
    {r : List Char} (hd : l.dropWhile p = c :: r) : p c = false := by
  have h := List.head?_dropWhile_not p l
  rw [hd] at h
  simpa using h

/-- A matched region is an initial segment of the input: the remainder
returned by `matchKey` is a suffix. -/
theorem matchKey_decomp {key cs r : List Char} (h : matchKey key cs = some r) :
    ∃ pre, cs = pre ++ r := by
  simp only [matchKey] at h
  cases hs : stripPfx key cs with
  | none => simp [hs] at h
  | some rest =>
    rw [hs] at h
    cases rest with
    | nil => simp at h
    | cons c cs2 =>
      by_cases hws : isWS c = true
      · simp only [hws, if_true, Option.some.injEq] at h
        have hdec : cs = key ++ c :: cs2 := stripPfx_eq_some hs
        have e1 : (c :: cs2) = ((c :: cs2).takeWhile isWS) ++ ((c :: cs2).dropWhile isWS) :=
          (List.takeWhile_append_dropWhile isWS _).symm
        have e2 : ((c :: cs2).dropWhile isWS)
            = (((c :: cs2).dropWhile isWS).takeWhile (fun x => !(x == '\n'))) ++ r := by
          rw [← h]
          exact (List.takeWhile_append_dropWhile _ _).symm
        refine ⟨key ++ (c :: cs2).takeWhile isWS
          ++ ((c :: cs2).dropWhile isWS).takeWhile (fun x => !(x == '\n')), ?_⟩
        rw [hdec]
        conv_lhs => rw [e1, e2]
        simp [List.append_assoc]
      · simp [hws] at h

/-- The remainder returned by `matchKey`, when non-empty, starts with a
newline. -/
theorem matchKey_head {key cs : List Char} {c : Char} {r : List Char}
    (h : matchKey key cs = some (c :: r)) : c = '\n' := by
  simp only [matchKey] at h
  cases hs : stripPfx key cs with
  | none => simp [hs] at h
  | some rest =>
    rw [hs] at h
    cases rest with
    | nil => simp at h
    | cons d ds =>
      by_cases hws : isWS d = true
      · simp only [hws, if_true, Option.some.injEq] at h
        have := dropWhile_cons_head h
        simpa using this
      · simp [hws] at h

/-- A replacement of `GoodRepl` shape contains no newline. -/
theorem GoodRepl.no_nl {key repl : List Char} (hknl : '\n' ∉ key)
    (hg : GoodRepl key repl) : '\n' ∉ repl := by
  obtain ⟨m, mid, hrepl, _, hnl, _⟩ := hg
  rw [hrepl]
  intro hmem
  rcases List.mem_append.1 hmem with h | h
  · exact hknl h
  · exact hnl h

/-- A `GoodRepl` replacement standing alone is matched entirely by its own
pattern: the remainder is empty. -/
theorem matchKey_goodRepl_nil {key repl : List Char} (hg : GoodRepl key repl) :
    matchKey key repl = some [] := by
  obtain ⟨m, mid, hrepl, hws, hnl, c, hc, hcws⟩ := hg
  subst hrepl
  simp only [matchKey, stripPfx_self_append]
  rw [if_pos hws]
  congr 1
  have hd : ∀ x ∈ (m :: mid).dropWhile isWS, (fun y => !(y == '\n')) x = true := by
    intro x hx
    have hmem : x ∈ m :: mid := (List.dropWhile_sublist isWS).mem hx
    have : x ≠ '\n' := fun he => hnl (he ▸ hmem)
    simpa using this
  exact List.dropWhile_eq_nil_iff.2 hd

/-- A `GoodRepl` replacement followed by a newline and anything is matched
exactly up to that newline. -/
theorem matchKey_goodRepl_cons {key repl : List Char} (hg : GoodRepl key repl)
    (z : List Char) : matchKey key (repl ++ '\n' :: z) = some ('\n' :: z) := by
  obtain ⟨m, mid, hrepl, hws, hnl, c, hc, hcws⟩ := hg
  subst hrepl
  rw [List.append_assoc]
  simp only [matchKey, stripPfx_self_append, List.cons_append]
  rw [if_pos hws]
  congr 1
  have hne : (m :: mid).dropWhile isWS ≠ [] := by
    intro hnil
    have := List.dropWhile_eq_nil_iff.1 hnil c hc
    rw [this] at hcws
    cases hcws
  rw [← List.cons_append, List.dropWhile_append]
  rw [if_neg (by simpa [List.isEmpty_iff] using hne)]
  have hq : ∀ x ∈ (m :: mid).dropWhile isWS, (fun y => !(y == '\n')) x = true := by
    intro x hx
    have hmem : x ∈ m :: mid := (List.dropWhile_sublist isWS).mem hx
    have : x ≠ '\n' := fun he => hnl (he ▸ hmem)
    simpa using this
  rw [List.dropWhile_append_of_pos hq]
  simp [List.dropWhile_cons]

/-- A replacement line inserted for a different key can never begin a match
of this key: `diffAt` forbids it, whatever follows. -/
theorem matchKey_foreign {key repl : List Char} (h : diffAt key repl = true)
    (w : List Char) : matchKey key (repl ++ w) = none := by
  simp only [matchKey, diffAt_strip h w]

/-- Failure of a literal-prefix strip against a first line is independent of
what follows that line, for a newline-free pattern. -/
theorem stripPfx_none_firstline (z r : List Char) :
    ∀ (k L : List Char), '\n' ∉ k → '\n' ∉ L →
      stripPfx k (L ++ '\n' :: r) = none → stripPfx k (L ++ '\n' :: z) = none := by
  intro k
  induction k with
  | nil =>
    intro L hk hL h
    simp [stripPfx] at h
  | cons a as ih =>
    intro L hk hL h
    cases L with
    | nil =>
      simp only [List.nil_append, stripPfx] at h ⊢
      rw [if_neg (fun he => hk (List.mem_cons.2 (Or.inl he)))]
    | cons b bs =>
      simp only [List.cons_append, stripPfx] at h ⊢
      split at h
      · rename_i hb
        rw [if_pos hb]
        exact ih bs (fun hm => hk (List.mem_cons_of_mem _ hm))
          (fun hm => hL (List.mem_cons_of_mem _ hm)) h
      · rename_i hb
        rw [if_neg hb]

/-- When a newline-free pattern is a prefix of `L ++ '\n' :: r` with `L`
newline-free, the pattern is in fact a prefix of `L`. -/
theorem append_nlfree_decomp :
    ∀ (k L rest r : List Char), '\n' ∉ k → '\n' ∉ L →
      L ++ '\n' :: r = k ++ rest → ∃ L2, L = k ++ L2 ∧ rest = L2 ++ '\n' :: r := by
  intro k
  induction k with
  | nil =>
    intro L rest r hk hL he
    exact ⟨L, by simp, by simpa using he.symm⟩
  | cons a as ih =>
    intro L rest r hk hL he
    cases L with
    | nil =>
      simp only [List.nil_append, List.cons_append, List.cons.injEq] at he
      exact absurd (List.mem_cons.2 (Or.inl he.1)) hk
    | cons b bs =>
      simp only [List.cons_append, List.cons.injEq] at he
      obtain ⟨L2, h1, h2⟩ := ih bs rest r
        (fun hm => hk (List.mem_cons_of_mem _ hm))
        (fun hm => hL (List.mem_cons_of_mem _ hm)) he.2
      exact ⟨L2, by rw [List.cons_append, ← h1, he.1], h2⟩

/-- Failure of `matchKey` against a first line is independent of what follows
that line, for a newline-free non-empty key. -/
theorem matchKey_none_firstline {k L r : List Char} (hk : '\n' ∉ k)
    (hL : '\n' ∉ L) (h : matchKey k (L ++ '\n' :: r) = none) (z : List Char) :
    matchKey k (L ++ '\n' :: z) = none := by
  simp only [matchKey] at h ⊢
  cases hs : stripPfx k (L ++ '\n' :: r) with
  | none => rw [stripPfx_none_firstline z r k L hk hL hs]
  | some rest =>
    rw [hs] at h
    obtain ⟨L2, hL2, hrest⟩ := append_nlfree_decomp k L rest r hk hL (stripPfx_eq_some hs)
    cases L2 with
    | nil =>
      rw [hrest] at h
      simp [isWS] at h
    | cons c L2t =>
      rw [hrest] at h
      simp only [List.cons_append] at h
      by_cases hws : isWS c = true
      · rw [if_pos hws] at h
        cases h
      · have hz : stripPfx k (L ++ '\n' :: z) = some (c :: (L2t ++ '\n' :: z)) := by
          rw [hL2, List.append_assoc, stripPfx_self_append]
          simp
        rw [hz]
        simp only [Bool.not_eq_true] at hws
        simp [hws]

/-- Splitting a list at its first newline is unambiguous. -/
theorem nl_split_unique :
    ∀ (L1 L2 u1 u2 : List Char), '\n' ∉ L1 → '\n' ∉ L2 →
      L1 ++ '\n' :: u1 = L2 ++ '\n' :: u2 → L1 = L2 ∧ u1 = u2 := by
  intro L1
  induction L1 with
  | nil =>
    intro L2 u1 u2 h1 h2 he
    cases L2 with
    | nil => simpa using he
    | cons b bs =>
      simp only [List.nil_append, List.cons_append, List.cons.injEq] at he
      exact absurd (List.mem_cons.2 (Or.inl he.1)) h2
  | cons a as ih =>
    intro L2 u1 u2 h1 h2 he
    cases L2 with
    | nil =>
      simp only [List.cons_append, List.nil_append, List.cons.injEq] at he
      exact absurd (List.mem_cons.2 (Or.inl he.1.symm)) h1
    | cons b bs =>
      simp only [List.cons_append, List.cons.injEq] at he
      obtain ⟨hab, h3, h4⟩ :=
        (⟨he.1, ih bs u1 u2 (fun hm => h1 (List.mem_cons_of_mem _ hm))
          (fun hm => h2 (List.mem_cons_of_mem _ hm)) he.2⟩ :
          _ ∧ _ ∧ _)
      exact ⟨by rw [hab, h3], h4⟩

/-- The fuel of `substF` is irrelevant once it exceeds the input length. -/
theorem substF_congr (key repl : List Char) :
    ∀ (f1 f2 : Nat) (cs : List Char), cs.length < f1 → cs.length < f2 →
      substF key repl f1 cs = substF key repl f2 cs := by
  intro f1
  induction f1 with
  | zero => intro f2 cs h1 h2; omega
  | succ g1 ih =>
    intro f2 cs h1 h2
    cases f2 with
    | zero => omega
    | succ g2 =>
      simp only [substF]
      cases hm : matchKey key cs with
      | some rest =>
        cases rest with
        | nil => rfl
        | cons c rest2 =>
          have hlt := matchKey_length hm
          simp only [List.length_cons] at hlt
          dsimp only
          rw [ih g2 rest2 (by omega) (by omega)]
      | none =>
        cases hd : cs.dropWhile (fun c => !(c == '\n')) with
        | nil => rfl
        | cons c rest2 =>
          have hle : (c :: rest2).length ≤ cs.length := by
            rw [← hd]
            exact (List.dropWhile_sublist _).length_le
          simp only [List.length_cons] at hle
          dsimp only
          rw [ih g2 rest2 (by omega) (by omega)]

/-- `subst` equation: a match covering the rest of the input. -/
theorem subst_some_nil {key cs : List Char} (repl : List Char)
    (h : matchKey key cs = some []) : subst key repl cs = repl := by
  simp [subst, substF, h]

/-- `subst` equation: a match followed by more input (the following
character is the newline ending the matched line). -/
theorem subst_some_cons {key cs : List Char} (repl : List Char) {c : Char}
    {rest : List Char} (h : matchKey key cs = some (c :: rest)) :
    subst key repl cs = repl ++ c :: subst key repl rest := by
  have hlt := matchKey_length h
  simp only [List.length_cons] at hlt
  simp only [subst, substF, h]
  congr 1
  exact congrArg _ (substF_congr key repl cs.length (rest.length + 1) rest
    (by omega) (by omega))

/-- `subst` equation: no match at this line start and no further line. -/
theorem subst_none_nil {key cs : List Char} (repl : List Char)
    (h : matchKey key cs = none)
    (h2 : cs.dropWhile (fun x => !(x == '\n')) = []) : subst key repl cs = cs := by
  simp [subst, substF, h, h2]

/-- `subst` equation: no match at this line start; copy the line and its
newline, continue on the rest. -/
theorem subst_none_cons {key cs : List Char} (repl : List Char) {c : Char}
    {rest : List Char} (h : matchKey key cs = none)
    (h2 : cs.dropWhile (fun x => !(x == '\n')) = c :: rest) :
    subst key repl cs
      = cs.takeWhile (fun x => !(x == '\n')) ++ c :: subst key repl rest := by
  have hle : (c :: rest).length ≤ cs.length := by
    rw [← h2]
    exact (List.dropWhile_sublist _).length_le
  simp only [List.length_cons] at hle
  simp only [subst, substF, h, h2]
  congr 1
  exact congrArg _ (substF_congr key repl cs.length (rest.length + 1) rest
    (by omega) (by omega))

/-- Everything in a newline-free list passes the not-a-newline test. -/
theorem nlfree_prop {l : List Char} (h : '\n' ∉ l) :
    ∀ x ∈ l, (fun y => !(y == '\n')) x = true := by
  intro x hx
  have : x ≠ '\n' := fun he => h (he ▸ hx)
  simpa using this

theorem dropWhile_nl_append {l : List Char} (h : '\n' ∉ l) (z : List Char) :
    (l ++ '\n' :: z).dropWhile (fun x => !(x == '\n')) = '\n' :: z := by
  rw [List.dropWhile_append_of_pos (nlfree_prop h),
    List.dropWhile_cons_of_neg (by simp)]

theorem takeWhile_nl_append {l : List Char} (h : '\n' ∉ l) (z : List Char) :
    (l ++ '\n' :: z).takeWhile (fun x => !(x == '\n')) = l := by
  rw [List.takeWhile_append_of_pos (nlfree_prop h),
    List.takeWhile_cons_of_neg (by simp)]
  simp

theorem dropWhile_nlfree {l : List Char} (h : '\n' ∉ l) :
    l.dropWhile (fun x => !(x == '\n')) = [] :=
  List.dropWhile_eq_nil_iff.2 (nlfree_prop h)

theorem subst_nil (key repl : List Char) : subst key repl [] = [] := by
  cases key <;> rfl

/-- Self-idempotence of one substitution pass with a well-shaped
replacement: every region the first pass rewrote becomes a full line that
the second pass rewrites to itself, and every untouched line stays
untouched. -/
theorem subst_idem {key repl : List Char} (hknl : '\n' ∉ key)
    (hg : GoodRepl key repl) :
    ∀ cs, subst key repl (subst key repl cs) = subst key repl cs := by
  have main : ∀ (n : Nat) (cs : List Char), cs.length ≤ n →
      subst key repl (subst key repl cs) = subst key repl cs := by
    intro n
    induction n with
    | zero =>
      intro cs hlen
      have hnil : cs = [] := List.eq_nil_of_length_eq_zero (Nat.le_zero.1 hlen)
      subst hnil
      rw [subst_nil, subst_nil]
    | succ n ih =>
      intro cs hlen
      cases hm : matchKey key cs with
      | some rest =>
        cases rest with
        | nil =>
          rw [subst_some_nil repl hm, subst_some_nil repl (matchKey_goodRepl_nil hg)]
        | cons c rest2 =>
          have hc := matchKey_head hm
          subst hc
          have hlt := matchKey_length hm
          simp only [List.length_cons] at hlt
          rw [subst_some_cons repl hm,
            subst_some_cons repl (matchKey_goodRepl_cons hg (subst key repl rest2)),
            ih rest2 (by omega)]
      | none =>
        cases hd : cs.dropWhile (fun x => !(x == '\n')) with
        | nil => rw [subst_none_nil repl hm hd, subst_none_nil repl hm hd]
        | cons c rest2 =>
          have hc : c = '\n' := by simpa using dropWhile_cons_head hd
          subst hc
          have hLnl : '\n' ∉ cs.takeWhile (fun x => !(x == '\n')) := by
            intro hmem
            simpa using List.mem_takeWhile_imp hmem
          have hcs : cs = cs.takeWhile (fun x => !(x == '\n')) ++ '\n' :: rest2 := by
            conv_lhs => rw [← List.takeWhile_append_dropWhile
              (fun x => !(x == '\n')) cs]
            rw [hd]
          have hlt : rest2.length < cs.length := by
            conv_rhs => rw [hcs]
            simp
            omega
          have hnone : matchKey key
              (cs.takeWhile (fun x => !(x == '\n')) ++ '\n' :: subst key repl rest2)
              = none :=
            matchKey_none_firstline hknl hLnl (by rw [← hcs]; exact hm) _
          rw [subst_none_cons repl hm hd,
            subst_none_cons repl hnone (dropWhile_nl_append hLnl _),
            takeWhile_nl_append hLnl, ih rest2 (by omega)]
  exact fun cs => main cs.length cs le_rfl

/-- A fixpoint of the substitution pass stays a fixpoint after its first
line (and that line's newline) are removed. -/
theorem subst_fix_tail {key repl : List Char} (hknl : '\n' ∉ key)
    (hg : GoodRepl key repl) {v : List Char} (hfix : subst key repl v = v)
    {c : Char} {rest : List Char}
    (hd : v.dropWhile (fun x => !(x == '\n')) = c :: rest) :
    subst key repl rest = rest := by
  cases hm : matchKey key v with
  | some r0 =>
    cases r0 with
    | nil =>
      have hv : v = repl := by rw [← subst_some_nil repl hm, hfix]
      have hnl : '\n' ∉ v := hv ▸ GoodRepl.no_nl hknl hg
      have hc : c = '\n' := by simpa using dropWhile_cons_head hd
      have hmem : c ∈ v :=
        (List.dropWhile_sublist _).mem (hd ▸ List.mem_cons_self c rest)
      rw [hc] at hmem
      exact absurd hmem hnl
    | cons c2 r2 =>
      have hc2 := matchKey_head hm
      subst hc2
      have heq : repl ++ '\n' :: subst key repl r2 = v := by
        rw [← subst_some_cons repl hm, hfix]
      have hdv : v.dropWhile (fun x => !(x == '\n')) = '\n' :: subst key repl r2 := by
        rw [← heq]
        exact dropWhile_nl_append (GoodRepl.no_nl hknl hg) _
      rw [hd] at hdv
      have hrest : rest = subst key repl r2 := by
        injection hdv
      rw [hrest]
      exact subst_idem hknl hg r2
  | none =>
    cases hd2 : v.dropWhile (fun x => !(x == '\n')) with
    | nil => rw [hd2] at hd; cases hd
    | cons c2 r2 =>
      rw [hd2] at hd
      injection hd with hc2 hr2
      rw [hc2, hr2] at hd2
      have heq := subst_none_cons repl hm hd2
      rw [hfix] at heq
      have hsplit : v = v.takeWhile (fun x => !(x == '\n')) ++ c :: rest := by
        conv_lhs => rw [← List.takeWhile_append_dropWhile (fun x => !(x == '\n')) v]
        rw [hd2]
      have hcons : c :: subst key repl rest = c :: rest :=
        List.append_cancel_left (heq.symm.trans hsplit)
      injection hcons

/-- A fixpoint of the substitution pass stays a fixpoint after any prefix
ending in a newline is removed. -/
theorem subst_fix_nl_suffix {key repl : List Char} (hknl : '\n' ∉ key)
    (hg : GoodRepl key repl) :
    ∀ (n : Nat) (v pre u : List Char), v.length ≤ n → subst key repl v = v →
      v = pre ++ '\n' :: u → subst key repl u = u := by
  intro n
  induction n with
  | zero =>
    intro v pre u hlen hfix hv
    rw [hv] at hlen
    simp at hlen
  | succ n ih =>
    intro v pre u hlen hfix hv
    have hnlv : '\n' ∈ v := by
      rw [hv]
      exact List.mem_append_right _ (List.mem_cons_self _ _)
    cases hd : v.dropWhile (fun x => !(x == '\n')) with
    | nil =>
      have := List.dropWhile_eq_nil_iff.1 hd '\n' hnlv
      simp at this
    | cons c rest =>
      have hc : c = '\n' := by simpa using dropWhile_cons_head hd
      subst hc
      have hfr : subst key repl rest = rest := subst_fix_tail hknl hg hfix hd
      have hLnl : '\n' ∉ v.takeWhile (fun x => !(x == '\n')) := by
        intro hmem
        simpa using List.mem_takeWhile_imp hmem
      have hsplit : v = v.takeWhile (fun x => !(x == '\n')) ++ '\n' :: rest := by
        conv_lhs => rw [← List.takeWhile_append_dropWhile (fun x => !(x == '\n')) v]
        rw [hd]
      by_cases hpre : '\n' ∈ pre
      · cases hdp : pre.dropWhile (fun x => !(x == '\n')) with
        | nil =>
          have := List.dropWhile_eq_nil_iff.1 hdp '\n' hpre
          simp at this
        | cons c2 pre2 =>
          have hc2 : c2 = '\n' := by simpa using dropWhile_cons_head hdp
          subst hc2
          have hprenl : '\n' ∉ pre.takeWhile (fun x => !(x == '\n')) := by
            intro hmem
            simpa using List.mem_takeWhile_imp hmem
          have hpresplit : pre = pre.takeWhile (fun x => !(x == '\n')) ++ '\n' :: pre2 := by
            conv_lhs => rw [← List.takeWhile_append_dropWhile (fun x => !(x == '\n')) pre]
            rw [hdp]
          have hv2 : v = pre.takeWhile (fun x => !(x == '\n'))
              ++ '\n' :: (pre2 ++ '\n' :: u) := by
            rw [hv]
            conv_lhs => rw [hpresplit]
            simp
          obtain ⟨hL, hrest⟩ := nl_split_unique _ _ _ _ hLnl hprenl
            (hsplit.symm.trans hv2)
          have hlen2 : rest.length ≤ n := by
            have : v.length = (v.takeWhile (fun x => !(x == '\n'))).length
                + (1 + rest.length) := by
              conv_lhs => rw [hsplit]
              simp
              omega
            omega
          exact ih rest pre2 u hlen2 hfr hrest
      · obtain ⟨hL, hu⟩ := nl_split_unique _ _ _ _ hLnl hpre
          (hsplit.symm.trans hv)
        rw [← hu]
        exact hfr

/-- Applying the substitution for one key preserves fixpoints of the
substitution for another key, when the two keys are newline-free, both
replacements are well-shaped, and the second key's replacement can never
begin a match of the first key. -/
theorem subst_cross {kA rA kB rB : List Char}
    (hkAnl : '\n' ∉ kA) (hgA : GoodRepl kA rA)
    (hkBnl : '\n' ∉ kB) (hgB : GoodRepl kB rB)
    (hdiff : diffAt kA rB = true) :
    ∀ (v : List Char), subst kA rA v = v →
      subst kA rA (subst kB rB v) = subst kB rB v := by
  have main : ∀ (n : Nat) (v : List Char), v.length ≤ n → subst kA rA v = v →
      subst kA rA (subst kB rB v) = subst kB rB v := by
    intro n
    induction n with
    | zero =>
      intro v hlen hfix
      have hnil : v = [] := List.eq_nil_of_length_eq_zero (Nat.le_zero.1 hlen)
      subst hnil
      rw [subst_nil, subst_nil]
    | succ n ih =>
      intro v hlen hfix
      cases hmB : matchKey kB v with
      | some r0 =>
        cases r0 with
        | nil =>
          rw [subst_some_nil rB hmB]
          have hmA : matchKey kA rB = none := by
            have h := matchKey_foreign hdiff []
            simpa using h
          exact subst_none_nil rA hmA (dropWhile_nlfree (GoodRepl.no_nl hkBnl hgB))
        | cons c r2 =>
          have hc := matchKey_head hmB
          subst hc
          rw [subst_some_cons rB hmB]
          obtain ⟨pre, hpre⟩ := matchKey_decomp hmB
          have hfixr2 : subst kA rA r2 = r2 :=
            subst_fix_nl_suffix hkAnl hgA v.length v pre r2 le_rfl hfix hpre
          have hlt := matchKey_length hmB
          simp only [List.length_cons] at hlt
          have hZ : subst kA rA (subst kB rB r2) = subst kB rB r2 :=
            ih r2 (by omega) hfixr2
          have hmA : matchKey kA (rB ++ '\n' :: subst kB rB r2) = none :=
            matchKey_foreign hdiff _
          rw [subst_none_cons rA hmA
              (dropWhile_nl_append (GoodRepl.no_nl hkBnl hgB) _),
            takeWhile_nl_append (GoodRepl.no_nl hkBnl hgB), hZ]
      | none =>
        cases hd : v.dropWhile (fun x => !(x == '\n')) with
        | nil =>
          rw [subst_none_nil rB hmB hd]
          exact hfix
        | cons c rest =>
          have hc : c = '\n' := by simpa using dropWhile_cons_head hd
          subst hc
          rw [subst_none_cons rB hmB hd]
          have hfixrest : subst kA rA rest = rest :=
            subst_fix_tail hkAnl hgA hfix hd
          have hLnl : '\n' ∉ v.takeWhile (fun x => !(x == '\n')) := by
            intro hmem
            simpa using List.mem_takeWhile_imp hmem
          have hcs : v = v.takeWhile (fun x => !(x == '\n')) ++ '\n' :: rest := by
            conv_lhs => rw [← List.takeWhile_append_dropWhile (fun x => !(x == '\n')) v]
            rw [hd]
          have hlt : rest.length < v.length := by
            conv_rhs => rw [hcs]
            simp
            omega
          have hZfix : subst kA rA (subst kB rB rest) = subst kB rB rest :=
            ih rest (by omega) hfixrest
          cases hmA : matchKey kA v with
          | none =>
            have hnone : matchKey kA (v.takeWhile (fun x => !(x == '\n'))
                ++ '\n' :: subst kB rB rest) = none :=
              matchKey_none_firstline hkAnl hLnl (by rw [← hcs]; exact hmA) _
            rw [subst_none_cons rA hnone (dropWhile_nl_append hLnl _),
              takeWhile_nl_append hLnl, hZfix]
          | some rA0 =>
            cases rA0 with
            | nil =>
              have hv : v = rA := by rw [← subst_some_nil rA hmA, hfix]
              have hmem : '\n' ∈ v := by
                rw [hcs]
                exact List.mem_append_right _ (List.mem_cons_self _ _)
              rw [hv] at hmem
              exact absurd hmem (GoodRepl.no_nl hkAnl hgA)
            | cons cA restA =>
              have hcA := matchKey_head hmA
              subst hcA
              have heq : rA ++ '\n' :: subst kA rA restA = v := by
                rw [← subst_some_cons rA hmA, hfix]
              obtain ⟨hLA, hW⟩ := nl_split_unique _ _ _ _
                (GoodRepl.no_nl hkAnl hgA) hLnl (heq.trans hcs)
              have hmAc : matchKey kA (v.takeWhile (fun x => !(x == '\n'))
                  ++ '\n' :: subst kB rB rest) = some ('\n' :: subst kB rB rest) := by
                rw [← hLA]
                exact matchKey_goodRepl_cons hgA _
              rw [subst_some_cons rA hmAc, hZfix, hLA]
  exact fun v => main v.length v le_rfl

theorem digitChar_ne_nl (n : Nat) : Nat.digitChar n ≠ '\n' := by
  by_cases h : n < 16
  · interval_cases n <;> decide
  · rw [Nat.digitChar.eq_def]
    iterate 16 rw [if_neg (by omega)]
    decide

theorem toDigitsCore_no_nl (b : Nat) :
    ∀ (fuel n : Nat) (acc : List Char), '\n' ∉ acc →
      '\n' ∉ Nat.toDigitsCore b fuel n acc := by
  intro fuel
  induction fuel with
  | zero =>
    intro n acc h
    simpa [Nat.toDigitsCore] using h
  | succ f ih =>
    intro n acc h
    have hcons : '\n' ∉ Nat.digitChar (n % b) :: acc := by
      intro hmem
      rcases List.mem_cons.1 hmem with h2 | h2
      · exact digitChar_ne_nl _ h2.symm
      · exact h h2
    simp only [Nat.toDigitsCore]
    split
    · exact hcons
    · exact ih _ _ hcons

theorem toDigits_no_nl (n : Nat) : '\n' ∉ Nat.toDigits 10 n :=
  toDigitsCore_no_nl 10 (n + 1) n [] (by simp)

/-- `replVersion` is a well-shaped replacement for its key when the version
value is benign. -/
theorem goodRepl_version {v : List Char} (hv : goodVal v) :
    GoodRepl "Version:".toList (replVersion v) := by
  obtain ⟨hnl, c, hc, hcws⟩ := hv
  refine ⟨' ', "       ".toList ++ v, ?_, by decide, ?_, c, ?_, hcws⟩
  · rw [replVersion,
      show "Version:        ".toList
        = "Version:".toList ++ ' ' :: "       ".toList from by decide]
    simp
  · intro hmem
    rcases List.mem_cons.1 hmem with h | h
    · exact absurd h (by decide)
    · rcases List.mem_append.1 h with h2 | h2
      · exact absurd h2 (by decide)
      · exact hnl h2
  · exact List.mem_cons_of_mem _ (List.mem_append_right _ hc)

/-- `replRelease` is a well-shaped replacement for its key, for every
release number: the decimal digits are newline-free and the trailing
`%`-text supplies a non-whitespace character. -/
theorem goodRepl_release (r : Nat) :
    GoodRepl "Release:".toList (replRelease r) := by
  refine ⟨' ', "       ".toList ++ Nat.toDigits 10 r ++ "%\x7b?dist\x7d".toList, ?_, by decide,
    ?_, '%', ?_, by decide⟩
  · rw [replRelease,
      show "Release:        ".toList
        = "Release:".toList ++ ' ' :: "       ".toList from by decide]
    simp
  · intro hmem
    rcases List.mem_cons.1 hmem with h | h
    · exact absurd h (by decide)
    · rcases List.mem_append.1 h with h2 | h2
      · rcases List.mem_append.1 h2 with h3 | h3
        · exact absurd h3 (by decide)
        · exact toDigits_no_nl r h3
      · exact absurd h2 (by decide)
  · exact List.mem_cons_of_mem _
      (List.mem_append_right _
        (show '%' ∈ "%\x7b?dist\x7d".toList from by decide))

/-- `replTheia` is a well-shaped replacement for its key when the value is
benign. -/
theorem goodRepl_theia {t : List Char} (ht : goodVal t) :
    GoodRepl "%global theia_version".toList (replTheia t) := by
  obtain ⟨hnl, c, hc, hcws⟩ := ht
  refine ⟨' ', t, ?_, by decide, ?_, c, List.mem_cons_of_mem _ hc, hcws⟩
  · rw [replTheia,
      show "%global theia_version ".toList
        = "%global theia_version".toList ++ [' '] from by decide]
    simp
  · intro hmem
    rcases List.mem_cons.1 hmem with h | h
    · exact absurd h (by decide)
    · exact hnl h

/-- `replElectron` is a well-shaped replacement for its key when the value
is benign. -/
theorem goodRepl_electron {t : List Char} (ht : goodVal t) :
    GoodRepl "%global electron_version".toList (replElectron t) := by
  obtain ⟨hnl, c, hc, hcws⟩ := ht
  refine ⟨' ', t, ?_, by decide, ?_, c, List.mem_cons_of_mem _ hc, hcws⟩
  · rw [replElectron,
      show "%global electron_version ".toList
        = "%global electron_version".toList ++ [' '] from by decide]
    simp
  · intro hmem
    rcases List.mem_cons.1 hmem with h | h
    · exact absurd h (by decide)
    · exact hnl h

theorem diffAt_version_release (r : Nat) :
    diffAt "Version:".toList (replRelease r) = true := by
  rw [replRelease]
  exact diffAt_append (diffAt_append (by decide) _) _

theorem diffAt_version_theia (t : List Char) :
    diffAt "Version:".toList (replTheia t) = true := by
  rw [replTheia]
  exact diffAt_append (by decide) t

theorem diffAt_version_electron (t : List Char) :
    diffAt "Version:".toList (replElectron t) = true := by
  rw [replElectron]
  exact diffAt_append (by decide) t

theorem diffAt_release_theia (t : List Char) :
    diffAt "Release:".toList (replTheia t) = true := by
  rw [replTheia]
  exact diffAt_append (by decide) t

theorem diffAt_release_electron (t : List Char) :
    diffAt "Release:".toList (replElectron t) = true := by
  rw [replElectron]
  exact diffAt_append (by decide) t

theorem diffAt_theia_electron (t : List Char) :
    diffAt "%global theia_version".toList (replElectron t) = true := by
  rw [replElectron]
  exact diffAt_append (by decide) t

/-- The conditional `Release:` pass preserves fixpoints of any earlier
well-shaped pass whose key its replacement cannot begin. -/
theorem appRelease_fix {kA rA : List Char} (hkA : '\n' ∉ kA)
    (hgA : GoodRepl kA rA) (hd : ∀ r, diffAt kA (replRelease r) = true)
    (rel : Option Nat) {c : List Char} (hfix : subst kA rA c = c) :
    subst kA rA (appRelease rel c) = appRelease rel c := by
  cases rel with
  | none => exact hfix
  | some r =>
    exact subst_cross hkA hgA (by decide) (goodRepl_release r) (hd r) c hfix

/-- The conditional `%global theia_version` pass preserves fixpoints of any
earlier well-shaped pass whose key its replacement cannot begin. -/
theorem appTheia_fix {kA rA : List Char} (hkA : '\n' ∉ kA)
    (hgA : GoodRepl kA rA) (hd : ∀ t, diffAt kA (replTheia t) = true)
    (theia : Option (List Char))
    (ht : ∀ t, theia = some t → t.isEmpty = false → goodVal t)
    {c : List Char} (hfix : subst kA rA c = c) :
    subst kA rA (appTheia theia c) = appTheia theia c := by
  cases theia with
  | none => exact hfix
  | some t =>
    by_cases he : t.isEmpty
    · simpa [appTheia, he] using hfix
    · have hgT := goodRepl_theia (ht t rfl (by simpa using he))
      simp only [appTheia, if_neg he]
      exact subst_cross hkA hgA (by decide) hgT (hd t) c hfix

/-- The conditional `%global electron_version` pass preserves fixpoints of
any earlier well-shaped pass whose key its replacement cannot begin. -/
theorem appElectron_fix {kA rA : List Char} (hkA : '\n' ∉ kA)
    (hgA : GoodRepl kA rA) (hd : ∀ t, diffAt kA (replElectron t) = true)
    (electron : Option (List Char))
    (he : ∀ t, electron = some t → t.isEmpty = false → goodVal t)
    {c : List Char} (hfix : subst kA rA c = c) :
    subst kA rA (appElectron electron c) = appElectron electron c := by
  cases electron with
  | none => exact hfix
  | some t =>
    by_cases hemp : t.isEmpty
    · simpa [appElectron, hemp] using hfix
    · have hgE := goodRepl_electron (he t rfl (by simpa using hemp))
      simp only [appElectron, if_neg hemp]
      exact subst_cross hkA hgA (by decide) hgE (hd t) c hfix

/-- C7 counterexample: with the empty version string — a value
`update_spec_file` accepts — the updater is not idempotent.  On
`"Version: x\nfoo"` the first application writes `"Version:        \nfoo"`;
on the second application the pattern's `\s+` crosses the newline of the
all-whitespace version line and swallows the following line, so the second
application changes the content again and reports a change. -/
theorem c7_counterexample :
    update_spec_content
        (update_spec_content "Version: x\nfoo".toList "".toList none none none)
        "".toList none none none
      ≠ update_spec_content "Version: x\nfoo".toList "".toList none none none
    ∧ (update_spec_file
        (update_spec_content "Version: x\nfoo".toList "".toList none none none)
        "".toList none none none).2 = true := by
  exact ⟨by decide, by decide⟩

/-- C7 amended: the spec-file updater is idempotent for every spec-file
content provided each substituted value — the version, and the
theia/electron versions when they are applied — contains no newline and at
least one non-whitespace character (every value the driver passes satisfies
this; the release number is an integer and its rendering always does).
The second application then computes byte-identical content and reports
that no changes are needed. -/
theorem c7_amended_idempotent (content version : List Char)
    (theia electron : Option (List Char)) (release : Option Nat)
    (hv : goodVal version)
    (ht : ∀ t, theia = some t → t.isEmpty = false → goodVal t)
    (he : ∀ t, electron = some t → t.isEmpty = false → goodVal t) :
    update_spec_content (update_spec_content content version theia electron release)
        version theia electron release
      = update_spec_content content version theia electron release
    ∧ (update_spec_file (update_spec_content content version theia electron release)
        version theia electron release).2 = false := by
  have hgV := goodRepl_version hv
  have hfix1 : subst "Version:".toList (replVersion version)
      (update_spec_content content version theia electron release)
      = update_spec_content content version theia electron release := by
    unfold update_spec_content
    apply appElectron_fix (by decide) hgV diffAt_version_electron electron he
    apply appTheia_fix (by decide) hgV diffAt_version_theia theia ht
    apply appRelease_fix (by decide) hgV diffAt_version_release release
    exact subst_idem (by decide) hgV content
  have hfix2 : appRelease release
      (update_spec_content content version theia electron release)
      = update_spec_content content version theia electron release := by
    cases release with
    | none => rfl
    | some r =>
      show subst "Release:".toList (replRelease r) _ = _
      unfold update_spec_content
      apply appElectron_fix (by decide) (goodRepl_release r)
        diffAt_release_electron electron he
      apply appTheia_fix (by decide) (goodRepl_release r)
        diffAt_release_theia theia ht
      show subst "Release:".toList (replRelease r) (appRelease (some r) _)
        = appRelease (some r) _
      simp only [appRelease]
      exact subst_idem (by decide) (goodRepl_release r) _
  have hfix3 : appTheia theia
      (update_spec_content content version theia electron release)
      = update_spec_content content version theia electron release := by
    cases theia with
    | none => rfl
    | some t =>
      by_cases hemp : t.isEmpty
      · simp [appTheia, hemp]
      · have hgT := goodRepl_theia (ht t rfl (by simpa using hemp))
        simp only [appTheia, if_neg hemp]
        unfold update_spec_content
        apply appElectron_fix (by decide) hgT diffAt_theia_electron electron he
        show subst "%global theia_version".toList (replTheia t)
            (appTheia (some t) _) = appTheia (some t) _
        simp only [appTheia, if_neg hemp]
        exact subst_idem (by decide) hgT _
  have hfix4 : appElectron electron
      (update_spec_content content version theia electron release)
      = update_spec_content content version theia electron release := by
    cases electron with
    | none => rfl
    | some t =>
      by_cases hemp : t.isEmpty
      · simp [appElectron, hemp]
      · have hgE := goodRepl_electron (he t rfl (by simpa using hemp))
        simp only [appElectron, if_neg hemp]
        unfold update_spec_content
        show subst "%global electron_version".toList (replElectron t)
            (appElectron (some t) _) = appElectron (some t) _
        simp only [appElectron, if_neg hemp]
        exact subst_idem (by decide) hgE _
  have hmain : update_spec_content
      (update_spec_content content version theia electron release)
      version theia electron release
      = update_spec_content content version theia electron release := by
    conv_lhs => rw [update_spec_content, hfix1, hfix2, hfix3, hfix4]
  refine ⟨hmain, ?_⟩
  simp [update_spec_file, hmain]

theorem c7_amended_idempotent_witness :
    update_spec_content
        (update_spec_content
          "Version: 0.1\nRelease: 9\n%global theia_version 1\n".toList
          "1.67.100".toList (some "1.64.0".toList) none (some 4))
        "1.67.100".toList (some "1.64.0".toList) none (some 4)
      = update_spec_content
          "Version: 0.1\nRelease: 9\n%global theia_version 1\n".toList
          "1.67.100".toList (some "1.64.0".toList) none (some 4) :=
  (c7_amended_idempotent "Version: 0.1\nRelease: 9\n%global theia_version 1\n".toList
    "1.67.100".toList (some "1.64.0".toList) none (some 4)
    (by refine ⟨by decide, '1', by decide, by decide⟩)
    (fun t htq hne => by
      cases htq
      exact ⟨by decide, '1', by decide, by decide⟩)
    (fun t htq hne => by cases htq)).1

end VendorDeps

